import Mathlib

/-!
Shallow embedding of the LBANN collective-communication and data-reader
core (`src/lbann_comm.cpp`, `src/data_readers/data_reader.cpp`) together
with proofs of the specification claims about it.

Machine integers from the C++ code are modelled as `Nat`/`Int`; C++ code
that can fail (throw or return `nullptr`) is modelled with `Except` or
`Option`.
-/

/-- Error kinds named by the specification (section 7). The C++ code throws
`lbann_exception` at the corresponding sites; the spec classifies the throw
sites by kind. -/
inductive LbannError where
  | InvalidTopology
  | SubsetTooLarge
deriving DecidableEq, Repr

/-- Rank coordinates computed by the `lbann_comm` constructor
(lbann_comm.cpp lines 54-96): `procs_per_model` after the zero
substitution, `num_models = world_size / procs_per_model`,
`model_rank = world_rank / procs_per_model` and
`rank_in_model = world_rank % procs_per_model`. -/
structure CommTopology where
  procs_per_model : Nat
  num_models : Nat
  model_rank : Nat
  rank_in_model : Nat
deriving DecidableEq, Repr

/-- Embedding of the `lbann_comm` constructor (lbann_comm.cpp lines 54-96).
An argument `_procs_per_model = 0` is replaced by the world size before
`num_models`, `model_rank` and `rank_in_model` are derived and before the
two validity checks run; each failing check throws, which the spec names
`InvalidTopology`. -/
def lbann_comm_init (procs_per_model_arg world_size world_rank : Nat) :
    Except LbannError CommTopology :=
  let procs_per_model := if procs_per_model_arg = 0 then world_size else procs_per_model_arg
  let num_models := world_size / procs_per_model
  let model_rank := world_rank / procs_per_model
  let rank_in_model := world_rank % procs_per_model
  if procs_per_model > world_size then
    .error .InvalidTopology
  else if world_size % procs_per_model ≠ 0 then
    .error .InvalidTopology
  else
    .ok ⟨procs_per_model, num_models, model_rank, rank_in_model⟩

/-- Collective buffer pool state (`lbann_comm::collective_bufs`): buckets of
heap buffers keyed by size. A buffer is modelled by the unique id it got at
allocation time (standing for the C++ pointer, which is stable because
buckets are only appended to and buffers are freed only in the destructor);
`next_id` is the fresh-id counter. A size that was never requested has the
empty bucket, which coincides behaviourally with the C++ map-miss branch. -/
structure BufPool where
  bufs : Nat → List Nat
  next_id : Nat

/-- Embedding of `lbann_comm::get_collective_buffer` (lbann_comm.cpp lines
484-506). Returns `none` exactly where the C++ returns `nullptr` (the
spec's `InvalidBufferIndex`): a slot strictly beyond the current bucket
length. `idx = length` appends one fresh buffer (this branch also covers
the C++ map-miss path, which demands `idx = 0` on an absent bucket);
`idx < length` returns the existing buffer and leaves the pool unchanged. -/
def get_collective_buffer (p : BufPool) (size idx : Nat) : Option Nat × BufPool :=
  let b := p.bufs size
  if idx < b.length then (some (b.getD idx 0), p)
  else if idx = b.length then
    (some p.next_id,
     ⟨fun s => if s = size then b ++ [p.next_id] else p.bufs s, p.next_id + 1⟩)
  else (none, p)

/-- Run a sequence of `get_collective_buffer` requests `(size, idx)` in
order, threading the pool state through. -/
def run_buffer_calls (calls : List (Nat × Nat)) (p : BufPool) : BufPool :=
  calls.foldl (fun q c => (get_collective_buffer q c.1 c.2).2) p

/-- Byte telemetry counters of `lbann_comm`. -/
structure CommCounters where
  bytes_sent : Nat
  bytes_received : Nat
deriving DecidableEq, Repr

/-- Embedding of the byte accounting of `lbann_comm::intermodel_sum_matrix`
(lbann_comm.cpp lines 110-120): both counters grow by
`sizeof(DataType) * height * width`, with the local dims for a `DistMat`.
The elementwise SUM allreduce itself happens in the external library. -/
def intermodel_sum_matrix (elem_size height width : Nat) (c : CommCounters) : CommCounters :=
  { bytes_sent := c.bytes_sent + elem_size * height * width,
    bytes_received := c.bytes_received + elem_size * height * width }

/-- Embedding of `lbann_comm::intermodel_broadcast_matrix` (lbann_comm.cpp
lines 138-144): the body is a bare `Broadcast` call into the external
library and touches neither byte counter. -/
def intermodel_broadcast_matrix (_elem_size _height _width _root : Nat)
    (c : CommCounters) : CommCounters :=
  c

/-- Pool extension order: every bucket of `p` survives, in place and with
the same buffer ids, into `q`. This is the no-buffer-is-ever-freed /
pointer-stability invariant of the pool. -/
def PoolExtends (p q : BufPool) : Prop :=
  ∀ s i, i < (p.bufs s).length →
    i < (q.bufs s).length ∧ (q.bufs s).getD i 0 = (p.bufs s).getD i 0

theorem poolExtends_refl (p : BufPool) : PoolExtends p p :=
  fun _ _ hi => ⟨hi, rfl⟩

theorem poolExtends_trans {p q r : BufPool} (h1 : PoolExtends p q)
    (h2 : PoolExtends q r) : PoolExtends p r := by
  intro s i hi
  obtain ⟨hq, eq1⟩ := h1 s i hi
  obtain ⟨hr, eq2⟩ := h2 s i hq
  exact ⟨hr, eq2.trans eq1⟩

theorem get_collective_buffer_extends (p : BufPool) (size idx : Nat) :
    PoolExtends p (get_collective_buffer p size idx).2 := by
  intro s i hi
  unfold get_collective_buffer
  by_cases h1 : idx < (p.bufs size).length
  · rw [if_pos h1]
    exact ⟨hi, rfl⟩
  · rw [if_neg h1]
    by_cases h2 : idx = (p.bufs size).length
    · rw [if_pos h2]
      by_cases hs : s = size
      · subst hs
        refine ⟨?_, ?_⟩
        · show i < (if s = s then p.bufs s ++ [p.next_id] else p.bufs s).length
          rw [if_pos rfl, List.length_append]
          simp only [List.length_cons, List.length_nil]
          omega
        · show (if s = s then p.bufs s ++ [p.next_id] else p.bufs s).getD i 0 =
            (p.bufs s).getD i 0
          rw [if_pos rfl]
          exact List.getD_append _ _ _ _ hi
      · exact ⟨by simp only [if_neg hs]; exact hi, by simp only [if_neg hs]⟩
    · rw [if_neg h2]
      exact ⟨hi, rfl⟩

theorem run_buffer_calls_extends (calls : List (Nat × Nat)) (p : BufPool) :
    PoolExtends p (run_buffer_calls calls p) := by
  induction calls generalizing p with
  | nil => exact poolExtends_refl p
  | cons c rest ih =>
    exact poolExtends_trans (get_collective_buffer_extends p c.1 c.2) (ih _)

theorem get_collective_buffer_success (p : BufPool) (size idx id : Nat)
    (h : (get_collective_buffer p size idx).1 = some id) :
    idx < ((get_collective_buffer p size idx).2.bufs size).length ∧
    ((get_collective_buffer p size idx).2.bufs size).getD idx 0 = id := by
  unfold get_collective_buffer at h ⊢
  by_cases h1 : idx < (p.bufs size).length
  · rw [if_pos h1] at h ⊢
    refine ⟨h1, ?_⟩
    simpa using h
  · rw [if_neg h1] at h ⊢
    by_cases h2 : idx = (p.bufs size).length
    · rw [if_pos h2] at h ⊢
      refine ⟨?_, ?_⟩
      · show idx < (if size = size then p.bufs size ++ [p.next_id] else p.bufs size).length
        rw [if_pos rfl, List.length_append]
        simp only [List.length_cons, List.length_nil]
        omega
      · show (if size = size then p.bufs size ++ [p.next_id] else p.bufs size).getD idx 0 = id
        rw [if_pos rfl, List.getD_append_right _ _ _ _ (le_of_eq h2.symm), h2]
        simpa using h
    · rw [if_neg h2] at h
      simp at h

theorem get_collective_buffer_of_present (q : BufPool) (size idx id : Nat)
    (hlen : idx < (q.bufs size).length) (hid : (q.bufs size).getD idx 0 = id) :
    (get_collective_buffer q size idx).1 = some id := by
  unfold get_collective_buffer
  rw [if_pos hlen]
  simpa using hid

/-- C5: `get_collective_buffer size idx` fails (returns `none`, the spec's
`InvalidBufferIndex`) for `idx` strictly beyond the current bucket length,
leaving the pool untouched; at `idx = length` it appends exactly one buffer
to that size's bucket (every other bucket unchanged); at `idx < length` it
returns the existing buffer without modifying the pool; every call only
extends buckets in place (no buffer is ever freed); and the id returned for
a `(size, idx)` pair is stable under any interleaving of later calls. -/
theorem get_collective_buffer_spec (p : BufPool) (size idx : Nat) :
    ((p.bufs size).length < idx → get_collective_buffer p size idx = (none, p)) ∧
    (idx = (p.bufs size).length →
      ((get_collective_buffer p size idx).2.bufs size).length = idx + 1 ∧
      (∀ s, s ≠ size → (get_collective_buffer p size idx).2.bufs s = p.bufs s)) ∧
    (idx < (p.bufs size).length →
      get_collective_buffer p size idx = (some ((p.bufs size).getD idx 0), p)) ∧
    (∀ s i, i < (p.bufs s).length →
      i < ((get_collective_buffer p size idx).2.bufs s).length ∧
      ((get_collective_buffer p size idx).2.bufs s).getD i 0 = (p.bufs s).getD i 0) ∧
    (∀ id calls, (get_collective_buffer p size idx).1 = some id →
      (get_collective_buffer
        (run_buffer_calls calls (get_collective_buffer p size idx).2) size idx).1
        = some id) := by
  refine ⟨?_, ?_, ?_, get_collective_buffer_extends p size idx, ?_⟩
  · intro hgt
    unfold get_collective_buffer
    rw [if_neg (by omega), if_neg (by omega)]
  · intro heq
    unfold get_collective_buffer
    rw [if_neg (by omega), if_pos heq]
    refine ⟨?_, ?_⟩
    · show (if size = size then p.bufs size ++ [p.next_id] else p.bufs size).length = idx + 1
      rw [if_pos rfl, List.length_append]
      simp only [List.length_cons, List.length_nil]
      omega
    · intro s hs
      show (if s = size then p.bufs size ++ [p.next_id] else p.bufs s) = p.bufs s
      rw [if_neg hs]
  · intro hlt
    unfold get_collective_buffer
    rw [if_pos hlt]
  · intro id calls h
    obtain ⟨hlen, hid⟩ := get_collective_buffer_success p size idx id h
    obtain ⟨hlen2, hid2⟩ :=
      run_buffer_calls_extends calls (get_collective_buffer p size idx).2 size idx hlen
    exact get_collective_buffer_of_present _ size idx id hlen2 (hid2.trans hid)

/-- Witness for C5: on an empty pool, slot 0 of size 8 is allocated id 0 and
that id is still returned after further interleaved calls. -/
theorem get_collective_buffer_spec_witness :
    (get_collective_buffer
      (run_buffer_calls [(8, 1), (4, 0)]
        (get_collective_buffer ⟨fun _ => [], 0⟩ 8 0).2) 8 0).1 = some 0 :=
  (get_collective_buffer_spec ⟨fun _ => [], 0⟩ 8 0).2.2.2.2 0 [(8, 1), (4, 0)] rfl

/-- C6 counterexample: `procs_per_model = 0` does not divide `world_size = 6`
evenly, yet construction succeeds (the zero is substituted with the world
size before validation), contradicting the claim that every such pair fails
with `InvalidTopology`. -/
theorem lbann_comm_init_zero_counterexample :
    (6 % 0 ≠ 0) ∧ lbann_comm_init 0 6 0 = .ok ⟨6, 1, 0, 0⟩ :=
  ⟨by decide, rfl⟩

/-- C6 amended: for a positive `procs_per_model`, construction fails with
`InvalidTopology` exactly when `procs_per_model` exceeds the world size or
does not divide it evenly; in particular `world_size = 6`,
`procs_per_model = 4` fails. (`procs_per_model = 0` is excluded: it is
substituted with the world size before the validation runs.) -/
theorem lbann_comm_init_topology_check (ppm world rank : Nat) (h : 0 < ppm) :
    (lbann_comm_init ppm world rank = .error .InvalidTopology ↔
      world < ppm ∨ world % ppm ≠ 0) ∧
    lbann_comm_init 4 6 0 = .error .InvalidTopology := by
  refine ⟨?_, rfl⟩
  simp only [lbann_comm_init]
  rw [if_neg (by omega : ¬ ppm = 0)]
  split_ifs with h1 h2
  · simp only [true_iff]
    omega
  · simp only [true_iff]
    omega
  · constructor
    · intro hok
      exact absurd hok (by simp)
    · intro hor
      omega

/-- Witness for C6 at `procs_per_model = 4`, `world_size = 6`. -/
theorem lbann_comm_init_topology_check_witness :
    (lbann_comm_init 4 6 0 = .error .InvalidTopology ↔ 6 < 4 ∨ 6 % 4 ≠ 0) ∧
    lbann_comm_init 4 6 0 = .error .InvalidTopology :=
  lbann_comm_init_topology_check 4 6 0 (by decide)

/-- C10: calling the constructor with `procs_per_model = 0` succeeds for any
nonempty world: the zero is replaced by `world_size` before the bounds and
divisibility checks (which then pass), producing one model spanning the
whole world with `num_models = 1` and `model_rank = 0`. -/
theorem lbann_comm_init_zero_substitution (world rank : Nat) (hw : 0 < world)
    (hr : rank < world) :
    lbann_comm_init 0 world rank = .ok ⟨world, 1, 0, rank⟩ := by
  simp only [lbann_comm_init, if_true]
  rw [if_neg (by omega), if_neg (by simp [Nat.mod_self])]
  rw [Nat.div_self hw, Nat.div_eq_of_lt hr, Nat.mod_eq_of_lt hr]

/-- Witness for C10 at `world_size = 6`, `world_rank = 2`. -/
theorem lbann_comm_init_zero_substitution_witness :
    lbann_comm_init 0 6 2 = .ok ⟨6, 1, 0, 2⟩ :=
  lbann_comm_init_zero_substitution 6 2 (by decide) (by decide)

/-- C9 counterexample: `intermodel_broadcast_matrix` on a 2 by 3 matrix with
4-byte elements leaves both byte counters unchanged, contradicting the claim
that it accumulates them by element count times element size (which would
demand 10 + 24 and 20 + 24). -/
theorem intermodel_broadcast_matrix_counterexample :
    intermodel_broadcast_matrix 4 2 3 0 ⟨10, 20⟩ = ⟨10, 20⟩ ∧ (4 * 2 * 3 : Nat) ≠ 0 :=
  ⟨rfl, by decide⟩

/-- C9 amended: `intermodel_sum_matrix` accumulates both `bytes_sent` and
`bytes_received` by element size times height times width of the submitted
view on every invocation (local dimensions for distributed matrices), while
`intermodel_broadcast_matrix` performs no byte accounting at all. -/
theorem byte_counter_accounting (elem_size height width root : Nat)
    (c : CommCounters) :
    (intermodel_sum_matrix elem_size height width c).bytes_sent
        = c.bytes_sent + elem_size * height * width ∧
    (intermodel_sum_matrix elem_size height width c).bytes_received
        = c.bytes_received + elem_size * height * width ∧
    intermodel_broadcast_matrix elem_size height width root c = c :=
  ⟨rfl, rfl, rfl⟩

/-- State of `generic_data_reader` (data_reader.cpp). C++ `int` fields are
modelled as `Int`; `m_max_sample_count` is a `size_t` (`Nat`) paired with
its was-set flag; the percent fields are `double`s with sentinel `-1`
meaning unset, modelled as exact rationals. -/
structure DataReaderState where
  shuffled_indices : List Int
  unused_indices : List Int
  current_pos : Int
  current_mini_batch_idx : Int
  batch_size : Int
  batch_stride : Int
  last_mini_batch_stride : Int
  last_mini_batch_size : Int
  base_offset : Int
  model_offset : Int
  num_mini_batches_per_reader : Int
  use_alt_last_mini_batch_size : Bool
  first_n : Bool
  max_sample_count : Nat
  max_sample_count_was_set : Bool
  use_percent : ℚ
  validation_percent : ℚ
deriving DecidableEq, Repr

/-- Embedding of `generic_data_reader::update` (data_reader.cpp lines
69-94). `sh` models one draw of `std::shuffle` with the data sequence
generator. Returns the C++ return value paired with the state after the
call. -/
def update (sh : List Int → List Int) (s : DataReaderState) : Bool × DataReaderState :=
  let pos' :=
    if s.use_alt_last_mini_batch_size &&
        decide (s.current_mini_batch_idx + 1 ≥ s.num_mini_batches_per_reader - 1) then
      s.current_pos + s.last_mini_batch_stride
    else
      s.current_pos + s.batch_stride
  if pos' < (s.shuffled_indices.length : Int) then
    (true, { s with current_pos := pos',
                    current_mini_batch_idx := s.current_mini_batch_idx + 1 })
  else
    (false, { s with
      shuffled_indices :=
        if s.first_n then s.shuffled_indices else sh s.shuffled_indices,
      current_mini_batch_idx := 0,
      current_pos := s.base_offset + s.model_offset })

/-- Embedding of `generic_data_reader::getm_batch_size` (data_reader.cpp
lines 96-103); the C++ method is `const` and only reads the state. -/
def getm_batch_size (s : DataReaderState) : Int :=
  if s.use_alt_last_mini_batch_size &&
      decide (s.current_mini_batch_idx ≥ s.num_mini_batches_per_reader - 1) then
    s.last_mini_batch_size
  else
    s.batch_size

/-- Position advance as worded by claim C3: `batch_stride` normally,
`last_mini_batch_stride` when the minibatch about to finish is at or past
the penultimate one and the alt-tail flag is enabled. -/
def claimNextPos (s : DataReaderState) : Int :=
  if s.use_alt_last_mini_batch_size &&
      decide (s.current_mini_batch_idx + 1 ≥ s.num_mini_batches_per_reader - 1) then
    s.current_pos + s.last_mini_batch_stride
  else
    s.current_pos + s.batch_stride

/-- C3 counterexample: a reader with `base_offset = 2`, `model_offset = 3`
wraps its epoch and ends with `current_pos = 5`, not `0` as the claim
states: the code resets `current_pos` to `base_offset + model_offset`. -/
theorem update_reset_counterexample :
    (update id ⟨[], [], 0, 0, 10, 1, 1, 3, 2, 3, 0, false, true, 0, false, -1, -1⟩).1
        = false ∧
    (update id ⟨[], [], 0, 0, 10, 1, 1, 3, 2, 3, 0, false, true, 0, false, -1, -1⟩).2.current_pos
        = 5 := by
  exact ⟨rfl, rfl⟩

/-- C3 amended: `update` advances `current_pos` by `batch_stride`, except
when the minibatch about to finish is at or past the penultimate one with
alt-tail enabled, where it advances by `last_mini_batch_stride`; it returns
`true` exactly while the new position is still within the shuffled index
vector; on epoch wrap it returns `false`, re-shuffles the indices unless
`first_n` is set, resets `current_mini_batch_idx` to zero and resets
`current_pos` to `base_offset + model_offset` (not to zero). -/
theorem update_spec (sh : List Int → List Int) (s : DataReaderState) :
    ((update sh s).1 = true ↔ claimNextPos s < (s.shuffled_indices.length : Int)) ∧
    ((update sh s).1 = true →
      (update sh s).2 = { s with current_pos := claimNextPos s,
                                 current_mini_batch_idx := s.current_mini_batch_idx + 1 }) ∧
    ((update sh s).1 = false →
      (update sh s).2.current_pos = s.base_offset + s.model_offset ∧
      (update sh s).2.current_mini_batch_idx = 0 ∧
      (update sh s).2.shuffled_indices =
        (if s.first_n then s.shuffled_indices else sh s.shuffled_indices)) := by
  unfold update claimNextPos
  by_cases hlt : (if s.use_alt_last_mini_batch_size &&
        decide (s.current_mini_batch_idx + 1 ≥ s.num_mini_batches_per_reader - 1) then
      s.current_pos + s.last_mini_batch_stride
    else
      s.current_pos + s.batch_stride) < (s.shuffled_indices.length : Int)
  · rw [if_pos hlt]
    exact ⟨by simpa using hlt, fun _ => rfl, fun h => by simp at h⟩
  · rw [if_neg hlt]
    exact ⟨by simpa using hlt, fun h => by simp at h, fun _ => ⟨rfl, rfl, rfl⟩⟩

/-- C8: `getm_batch_size` returns `last_mini_batch_size` when the alt-tail
flag is enabled and `current_mini_batch_idx` is at or past
`num_mini_batches_per_reader - 1`, and `batch_size` in every other case.
The call is a pure read of the state (the C++ method is `const`), so the
reader state is unchanged by construction. -/
theorem getm_batch_size_spec (s : DataReaderState) :
    (s.use_alt_last_mini_batch_size = true ∧
        s.current_mini_batch_idx ≥ s.num_mini_batches_per_reader - 1 →
      getm_batch_size s = s.last_mini_batch_size) ∧
    (¬(s.use_alt_last_mini_batch_size = true ∧
        s.current_mini_batch_idx ≥ s.num_mini_batches_per_reader - 1) →
      getm_batch_size s = s.batch_size) := by
  unfold getm_batch_size
  constructor
  · intro h
    rw [if_pos (by simp [h.1, h.2])]
  · intro h
    rw [if_neg (by simpa using h)]

/-- Resize of a `std::vector<int>` to `n` elements: truncates or
zero-pads. -/
def listResize (l : List Int) (n : Nat) : List Int :=
  l.take n ++ List.replicate (n - l.length) 0

/-- Sorted permutation of a `std::vector<int>`, modelling `std::sort`. -/
def cppSort (l : List Int) : List Int := List.insertionSort (· ≤ ·) l

/-- Accessor `generic_data_reader::has_max_sample_count` (data_reader.cpp
line 305): the was-set flag. -/
def has_max_sample_count (s : DataReaderState) : Bool := s.max_sample_count_was_set

/-- Accessor `generic_data_reader::has_use_percent` (data_reader.cpp line
346): the `-1` sentinel means unset. -/
def has_use_percent (s : DataReaderState) : Bool := decide ¬(s.use_percent = -1)

/-- Accessor `generic_data_reader::has_validation_percent` (data_reader.cpp
line 326): the `-1` sentinel means unset. -/
def has_validation_percent (s : DataReaderState) : Bool :=
  decide ¬(s.validation_percent = -1)

/-- The data count `getNumData()`, which in `select_subset_of_data` equals
the current size of the shuffled index vector (code comment at
data_reader.cpp line 139). -/
def getNumData (s : DataReaderState) : Nat := s.shuffled_indices.length

/-- Truncation step of `select_subset_of_data` (data_reader.cpp lines
124-136): checks `max_sample_count` against the data count (throwing the
spec's `SubsetTooLarge`) and resizes to it, else resizes to
`use_percent * N` (the C++ double→size_t conversion is floor for the
nonnegative values produced by validated configurations). -/
def select_subset_truncate (s0 : DataReaderState) :
    Except LbannError DataReaderState :=
  if has_max_sample_count s0 then
    if getNumData s0 < s0.max_sample_count then
      .error LbannError.SubsetTooLarge
    else
      .ok { s0 with shuffled_indices :=
              listResize s0.shuffled_indices s0.max_sample_count }
  else if has_use_percent s0 then
    .ok { s0 with shuffled_indices :=
            listResize s0.shuffled_indices (⌊s0.use_percent * (getNumData s0 : ℚ)⌋).toNat }
  else .ok s0

/-- Validation carve-off step of `select_subset_of_data` (data_reader.cpp
lines 138-145): `unused = validation_percent * N` (double→long, floor) is
split off the tail of the shuffled vector when positive. -/
def select_subset_carve (s1 : DataReaderState) : DataReaderState :=
  if has_validation_percent s1 then
    if 0 < (⌊s1.validation_percent * (getNumData s1 : ℚ)⌋ : Int) then
      { s1 with
        unused_indices := s1.shuffled_indices.drop
          ((getNumData s1 : Int) - ⌊s1.validation_percent * (getNumData s1 : ℚ)⌋).toNat,
        shuffled_indices := s1.shuffled_indices.take
          ((getNumData s1 : Int) - ⌊s1.validation_percent * (getNumData s1 : ℚ)⌋).toNat }
    else s1
  else s1

/-- Final re-sort step of `select_subset_of_data` (data_reader.cpp lines
147-150): both vectors are sorted unless `first_n` is set. -/
def select_subset_sort (s2 : DataReaderState) : DataReaderState :=
  if s2.first_n then s2
  else { s2 with shuffled_indices := cppSort s2.shuffled_indices,
                 unused_indices := cppSort s2.unused_indices }

/-- Embedding of `generic_data_reader::select_subset_of_data`
(data_reader.cpp lines 115-151): shuffle unless `first_n`; early return
when no subset option is configured; truncation; carve-off; re-sort. `sh`
models the `std::shuffle` draw. -/
def select_subset_of_data (sh : List Int → List Int) (s : DataReaderState) :
    Except LbannError DataReaderState :=
  let s0 := { s with shuffled_indices :=
                if s.first_n then s.shuffled_indices else sh s.shuffled_indices }
  if ¬(has_max_sample_count s0 || has_use_percent s0 || has_validation_percent s0) then
    .ok s0
  else
    match select_subset_truncate s0 with
    | .error e => .error e
    | .ok s1 => .ok (select_subset_sort (select_subset_carve s1))

/-- Post-truncation index count as worded by claim C7: `max_sample_count`,
else `use_percent` of the data count, else everything. -/
def truncCount (s : DataReaderState) : Nat :=
  if s.max_sample_count_was_set then s.max_sample_count
  else if ¬(s.use_percent = -1) then
    (⌊s.use_percent * (s.shuffled_indices.length : ℚ)⌋).toNat
  else s.shuffled_indices.length

/-- Carve-off size for a validation percent `vp` over a pool of `n`
indices: `vp * n` rounded down, zero when `vp` is unset. -/
def carveOf (vp : ℚ) (n : Nat) : Nat :=
  if ¬(vp = -1) then (⌊vp * (n : ℚ)⌋).toNat else 0

/-- Number of indices carved off into `unused` as worded by claim C7:
`validation_percent` of the remaining (post-truncation) pool. -/
def carveCount (s : DataReaderState) : Nat :=
  carveOf s.validation_percent (truncCount s)

theorem listResize_length (l : List Int) (n : Nat) : (listResize l n).length = n := by
  unfold listResize
  rw [List.length_append, List.length_take, List.length_replicate]
  omega

theorem cppSort_length (l : List Int) : (cppSort l).length = l.length :=
  List.length_insertionSort _ l

theorem cppSort_sorted (l : List Int) : List.Sorted (· ≤ ·) (cppSort l) :=
  List.sorted_insertionSort _ l

theorem select_subset_truncate_spec (s0 : DataReaderState) :
    (∀ e, select_subset_truncate s0 = .error e ↔
      e = .SubsetTooLarge ∧ s0.max_sample_count_was_set = true ∧
        s0.shuffled_indices.length < s0.max_sample_count) ∧
    (∀ s1, select_subset_truncate s0 = .ok s1 →
      s1.shuffled_indices.length =
        (if s0.max_sample_count_was_set then s0.max_sample_count
         else if ¬(s0.use_percent = -1) then
           (⌊s0.use_percent * (s0.shuffled_indices.length : ℚ)⌋).toNat
         else s0.shuffled_indices.length) ∧
      s1.unused_indices = s0.unused_indices ∧
      s1.first_n = s0.first_n ∧
      s1.validation_percent = s0.validation_percent) := by
  unfold select_subset_truncate has_max_sample_count has_use_percent getNumData
  by_cases hmax : s0.max_sample_count_was_set = true
  · rw [if_pos hmax]
    by_cases hbig : s0.shuffled_indices.length < s0.max_sample_count
    · rw [if_pos hbig]
      constructor
      · intro e
        constructor
        · intro h
          injection h with h
          exact ⟨h.symm, hmax, hbig⟩
        · rintro ⟨rfl, -, -⟩
          rfl
      · intro s1 h
        exact absurd h (by simp)
    · rw [if_neg hbig]
      constructor
      · intro e
        simp [hbig]
      · intro s1 h
        cases h
        simp [hmax, listResize_length]
  · rw [if_neg hmax]
    by_cases huse : s0.use_percent = -1
    · rw [if_neg (by simp [huse])]
      constructor
      · intro e
        simp [hmax]
      · intro s1 h
        cases h
        simp [hmax, huse]
    · rw [if_pos (by simp [huse])]
      constructor
      · intro e
        simp [hmax]
      · intro s1 h
        cases h
        simp [hmax, huse, listResize_length]

theorem select_subset_carve_spec (s1 : DataReaderState)
    (hvp1 : ¬(s1.validation_percent = -1) → s1.validation_percent ≤ 1) :
    (select_subset_carve s1).shuffled_indices.length
        = s1.shuffled_indices.length
            - carveOf s1.validation_percent s1.shuffled_indices.length ∧
    (select_subset_carve s1).unused_indices.length
        = (if 0 < carveOf s1.validation_percent s1.shuffled_indices.length then
             carveOf s1.validation_percent s1.shuffled_indices.length
           else s1.unused_indices.length) ∧
    (select_subset_carve s1).first_n = s1.first_n := by
  unfold select_subset_carve has_validation_percent carveOf getNumData
  by_cases hvp : s1.validation_percent = -1
  · simp [hvp]
  · have hle : (⌊s1.validation_percent * (s1.shuffled_indices.length : ℚ)⌋ : Int)
        ≤ (s1.shuffled_indices.length : Int) := by
      have h1 : s1.validation_percent * (s1.shuffled_indices.length : ℚ)
          ≤ (s1.shuffled_indices.length : ℚ) :=
        mul_le_of_le_one_left (by positivity) (hvp1 hvp)
      calc (⌊s1.validation_percent * (s1.shuffled_indices.length : ℚ)⌋ : Int)
          ≤ ⌊((s1.shuffled_indices.length : Nat) : ℚ)⌋ := Int.floor_le_floor h1
        _ = (s1.shuffled_indices.length : Int) := Int.floor_natCast _
    rw [if_pos (show (decide ¬(s1.validation_percent = -1)) = true by simp [hvp]),
        if_pos hvp]
    by_cases hpos :
        (0 : Int) < ⌊s1.validation_percent * (s1.shuffled_indices.length : ℚ)⌋
    · rw [if_pos hpos, if_pos (by omega)]
      refine ⟨?_, ?_, rfl⟩
      · rw [List.length_take]
        omega
      · rw [List.length_drop]
        omega
    · rw [if_neg hpos, if_neg (by omega)]
      exact ⟨by omega, rfl, rfl⟩

theorem select_subset_sort_spec (s2 : DataReaderState) :
    (select_subset_sort s2).shuffled_indices.length = s2.shuffled_indices.length ∧
    (select_subset_sort s2).unused_indices.length = s2.unused_indices.length ∧
    (s2.first_n = false →
      List.Sorted (· ≤ ·) (select_subset_sort s2).shuffled_indices ∧
      List.Sorted (· ≤ ·) (select_subset_sort s2).unused_indices) := by
  unfold select_subset_sort
  by_cases hfn : s2.first_n
  · rw [if_pos hfn]
    exact ⟨rfl, rfl, fun h => by rw [h] at hfn; cases hfn⟩
  · rw [if_neg hfn]
    exact ⟨cppSort_length _, cppSort_length _,
      fun _ => ⟨cppSort_sorted _, cppSort_sorted _⟩⟩

theorem select_subset_props (sh : List Int → List Int) (s : DataReaderState)
    (hsh : ∀ l, (sh l).length = l.length)
    (hopt : s.max_sample_count_was_set = true ∨ ¬(s.use_percent = -1) ∨
      ¬(s.validation_percent = -1))
    (hvp : ¬(s.validation_percent = -1) → s.validation_percent ≤ 1) :
    (∀ e, select_subset_of_data sh s = .error e ↔
      e = .SubsetTooLarge ∧ s.max_sample_count_was_set = true ∧
        s.shuffled_indices.length < s.max_sample_count) ∧
    (∀ t, select_subset_of_data sh s = .ok t →
      (s.first_n = false →
        List.Sorted (· ≤ ·) t.shuffled_indices ∧
        List.Sorted (· ≤ ·) t.unused_indices) ∧
      t.shuffled_indices.length = truncCount s - carveCount s ∧
      t.unused_indices.length =
        (if 0 < carveCount s then carveCount s else s.unused_indices.length)) := by
  unfold select_subset_of_data
  have hguard : (has_max_sample_count
      { s with shuffled_indices :=
          if s.first_n then s.shuffled_indices else sh s.shuffled_indices } ||
    has_use_percent
      { s with shuffled_indices :=
          if s.first_n then s.shuffled_indices else sh s.shuffled_indices } ||
    has_validation_percent
      { s with shuffled_indices :=
          if s.first_n then s.shuffled_indices else sh s.shuffled_indices }) = true := by
    unfold has_max_sample_count has_use_percent has_validation_percent
    rcases hopt with h | h | h <;> simp [h]
  rw [if_neg (by simp [hguard])]
  have hlen0 : (if s.first_n then s.shuffled_indices else sh s.shuffled_indices).length
      = s.shuffled_indices.length := by
    by_cases hfn : s.first_n <;> simp [hfn, hsh]
  obtain ⟨htr_err, htr_ok⟩ := select_subset_truncate_spec
    { s with shuffled_indices :=
        if s.first_n then s.shuffled_indices else sh s.shuffled_indices }
  dsimp only at htr_err htr_ok
  rw [hlen0] at htr_err htr_ok
  cases htr : select_subset_truncate
      { s with shuffled_indices :=
          if s.first_n then s.shuffled_indices else sh s.shuffled_indices } with
  | error e =>
    rw [htr] at htr_err
    refine ⟨fun e2 => htr_err e2, ?_⟩
    intro t h
    exact absurd h (by simp)
  | ok s1 =>
    rw [htr] at htr_err htr_ok
    obtain ⟨hs1len, hs1unused, hs1fn, hs1vp⟩ := htr_ok s1 rfl
    have hvp1 : ¬(s1.validation_percent = -1) → s1.validation_percent ≤ 1 := by
      rw [hs1vp]
      exact hvp
    obtain ⟨hc_sh, hc_un, hc_fn⟩ := select_subset_carve_spec s1 hvp1
    obtain ⟨hso_sh, hso_un, hso_sorted⟩ := select_subset_sort_spec (select_subset_carve s1)
    have htrunc : s1.shuffled_indices.length = truncCount s := by
      rw [hs1len]
      unfold truncCount
      rfl
    have hcarve : carveOf s1.validation_percent s1.shuffled_indices.length
        = carveCount s := by
      rw [hs1vp, htrunc]
      unfold carveCount
      rfl
    constructor
    · intro e2
      constructor
      · intro h
        exact absurd h (by simp)
      · intro hrhs
        exact absurd ((htr_err e2).mpr hrhs) (by simp)
    · intro t h
      injection h with h
      subst h
      refine ⟨?_, ?_, ?_⟩
      · intro hfn
        exact hso_sorted (by rw [hc_fn, hs1fn]; exact hfn)
      · rw [hso_sh, hc_sh, hcarve, htrunc]
      · rw [hso_un, hc_un, hcarve, hs1unused]

/-- Scenario of claim C7: a reader over 100 samples with
`use_percent = 0.5` and `validation_percent = 0.2`. (`first_n` is set, so
the shuffle and re-sort steps are the identity; the counts are
unaffected by this choice.) -/
def subsetScenario : DataReaderState :=
  ⟨(List.range 100).map Int.ofNat, [], 0, 0, 0, 0, 0, 0, 0, 0, 0,
   false, true, 0, false, 1/2, 1/5⟩

/-- Witness state for claim C7: one sample, `max_sample_count = 1`
configured, percents unset, `first_n` unset. -/
def subsetWitnessState : DataReaderState :=
  ⟨[5], [], 0, 0, 0, 0, 0, 0, 0, 0, 0, false, false, 1, true, -1, -1⟩

/-- C7 counterexample: with no subset option configured and `first_n`
unset, `select_subset_of_data` stops right after the shuffle without
re-sorting: a shuffle that reverses `[0, 1]` leaves the unsorted `[1, 0]`,
contradicting the claim that the vectors are then re-sorted whenever
`first_n` is not set. -/
theorem select_subset_no_option_counterexample :
    (select_subset_of_data List.reverse
        ⟨[0, 1], [], 0, 0, 0, 0, 0, 0, 0, 0, 0, false, false, 0, false, -1, -1⟩).map
        (fun t => t.shuffled_indices) = .ok [1, 0] ∧
    ¬ List.Sorted (· ≤ ·) ([1, 0] : List Int) := by
  constructor
  · rfl
  · decide

/-- C7 amended: when at least one subset option (max sample count, use
percent, validation percent) is configured, `select_subset_of_data`
applies shuffle (unless `first_n`), truncation, validation carve-off and
a final re-sort of both vectors (unless `first_n`); it fails with
`SubsetTooLarge` exactly when `max_sample_count` is configured and
exceeds the data count; on success the shuffled vector keeps
`truncCount - carveCount` indices and the unused vector gets `carveCount`
(when positive). With no option configured the function stops after the
shuffle and in particular does not re-sort. In the scenario `N = 100`,
`use_percent = 0.5`, `validation_percent = 0.2` the shuffled vector ends
with 40 elements and the unused vector with 10. -/
theorem select_subset_of_data_spec (sh : List Int → List Int)
    (s : DataReaderState)
    (hsh : ∀ l, (sh l).length = l.length)
    (hopt : s.max_sample_count_was_set = true ∨ ¬(s.use_percent = -1) ∨
      ¬(s.validation_percent = -1))
    (hvp : ¬(s.validation_percent = -1) → s.validation_percent ≤ 1) :
    (select_subset_of_data sh s = .error .SubsetTooLarge ↔
      s.max_sample_count_was_set = true ∧
        s.shuffled_indices.length < s.max_sample_count) ∧
    (∀ t, select_subset_of_data sh s = .ok t →
      (s.first_n = false →
        List.Sorted (· ≤ ·) t.shuffled_indices ∧
        List.Sorted (· ≤ ·) t.unused_indices) ∧
      t.shuffled_indices.length = truncCount s - carveCount s ∧
      t.unused_indices.length =
        (if 0 < carveCount s then carveCount s else s.unused_indices.length)) ∧
    (select_subset_of_data id subsetScenario).map
        (fun t => (t.shuffled_indices.length, t.unused_indices.length))
      = .ok (40, 10) := by
  obtain ⟨herr, hok⟩ := select_subset_props sh s hsh hopt hvp
  refine ⟨?_, hok, ?_⟩
  · rw [herr .SubsetTooLarge]
    simp
  · obtain ⟨herr2, hok2⟩ := select_subset_props id subsetScenario
      (fun l => rfl)
      (Or.inr (Or.inl (show ¬(1/2 : ℚ) = -1 by norm_num)))
      (fun _ => show (1/5 : ℚ) ≤ 1 by norm_num)
    have htc : truncCount subsetScenario = 50 := by
      unfold truncCount subsetScenario
      norm_num
      rfl
    have hcc : carveCount subsetScenario = 10 := by
      unfold carveCount carveOf
      rw [htc]
      unfold subsetScenario
      norm_num
      rfl
    cases hsel : select_subset_of_data id subsetScenario with
    | error e =>
      have := (herr2 e).mp hsel
      exact absurd this.2.1 (by decide)
    | ok t =>
      obtain ⟨-, hlen1, hlen2⟩ := hok2 t hsel
      show Except.ok (t.shuffled_indices.length, t.unused_indices.length)
          = Except.ok (40, 10)
      rw [hlen1, hlen2, htc, hcc]
      norm_num

/-- Witness for C7: on a one-sample reader with `max_sample_count = 1`
configured, the failure equivalence instance produced by the theorem. -/
theorem select_subset_of_data_spec_witness :
    select_subset_of_data id subsetWitnessState = .error .SubsetTooLarge ↔
      subsetWitnessState.max_sample_count_was_set = true ∧
        subsetWitnessState.shuffled_indices.length
          < subsetWitnessState.max_sample_count :=
  (select_subset_of_data_spec id subsetWitnessState (fun _ => rfl)
    (Or.inl rfl) (fun h => absurd rfl h)).1

/-- The four checkpoint fields written by `saveToCheckpointShared`. The
C++ keys are `<name>_current_mini_batch_idx`, `<name>_data_size`,
`<name>_data_position`, `<name>_data_indices`; with one fixed reader name
the field suffix identifies the key. -/
inductive CkptField where
  | current_mini_batch_idx
  | data_size
  | data_position
  | data_indices
deriving DecidableEq, Repr

/-- Typed key-value checkpoint store (the spec's external persist writer):
little-endian u64 scalars and contiguous i32 arrays in the train bucket. -/
structure Persist where
  u64 : CkptField → Option Nat
  i32arr : CkptField → Option (List Int)

/-- Store a u64 scalar, as `persist::write_uint64`. -/
def write_uint64 (p : Persist) (k : CkptField) (v : Nat) : Persist :=
  { p with u64 := fun k2 => if k2 = k then some v else p.u64 k2 }

/-- Store a contiguous i32 array, as `persist::write_int32_contig`. -/
def write_int32_contig (p : Persist) (k : CkptField) (a : List Int) : Persist :=
  { p with i32arr := fun k2 => if k2 = k then some a else p.i32arr k2 }

/-- The C++ cast `(uint64_t) v` applied to an `int` at the save sites:
reduction of the two's-complement value modulo 2^64. -/
def intToUInt64 (i : Int) : Nat := (i % (2 ^ 64 : Int)).toNat

/-- The C++ cast `(int) val` applied to a `uint64_t` at the load sites:
wrap into the 32-bit two's-complement range. -/
def uint64ToInt (n : Nat) : Int :=
  if n % 2 ^ 32 < 2 ^ 31 then ((n % 2 ^ 32 : Nat) : Int)
  else ((n % 2 ^ 32 : Nat) : Int) - 2 ^ 32

/-- Embedding of `generic_data_reader::saveToCheckpointShared`
(data_reader.cpp lines 179-206): only rank 0 writes, recording the
minibatch index, the size of the shuffled index vector, the current
position, and the index vector itself. -/
def saveToCheckpointShared (p : Persist) (rank : Nat) (s : DataReaderState) : Persist :=
  if rank = 0 then
    let p1 := write_uint64 p .current_mini_batch_idx (intToUInt64 s.current_mini_batch_idx)
    let p2 := write_uint64 p1 .data_size (intToUInt64 (s.shuffled_indices.length : Int))
    let p3 := write_uint64 p2 .data_position (intToUInt64 s.current_pos)
    write_int32_contig p3 .data_indices s.shuffled_indices
  else p

/-- Embedding of `generic_data_reader::loadFromCheckpointShared`
(data_reader.cpp lines 209-258): rank 0 reads the four fields (resizing
its index vector to the recorded size before reading the array), then
`MPI_Bcast` from rank 0 distributes the minibatch index, the position,
the size and the index array, each non-root rank resizing before the
array broadcast. The returned family is the post-load state of every
rank. -/
def loadFromCheckpointShared (p : Persist) (states : Nat → DataReaderState) :
    Nat → DataReaderState :=
  let idx0 := uint64ToInt ((p.u64 .current_mini_batch_idx).getD 0)
  let size0 := uint64ToInt ((p.u64 .data_size).getD 0)
  let pos0 := uint64ToInt ((p.u64 .data_position).getD 0)
  let inds0 := listResize ((p.i32arr .data_indices).getD []) size0.toNat
  fun r => { states r with current_mini_batch_idx := idx0,
                            current_pos := pos0,
                            shuffled_indices := inds0 }

theorem uint64ToInt_intToUInt64 (i : Int) (h0 : 0 ≤ i) (h1 : i < 2 ^ 31) :
    uint64ToInt (intToUInt64 i) = i := by
  unfold uint64ToInt intToUInt64
  have hmod : i % (2 ^ 64 : Int) = i := Int.emod_eq_of_lt h0 (by omega)
  rw [hmod]
  rw [if_pos (by omega)]
  omega

/-- C4: saving on rank 0 and then loading restores `current_pos`,
`current_mini_batch_idx` and the shuffled index vector to rank 0's saved
values, bit-identically, on every rank; consequently all ranks observe
identical shuffling state. Ranks other than 0 write nothing on save. -/
theorem checkpoint_roundtrip (p : Persist) (states : Nat → DataReaderState)
    (hidx0 : 0 ≤ (states 0).current_mini_batch_idx)
    (hidx1 : (states 0).current_mini_batch_idx < 2 ^ 31)
    (hpos0 : 0 ≤ (states 0).current_pos)
    (hpos1 : (states 0).current_pos < 2 ^ 31)
    (hlen : (states 0).shuffled_indices.length < 2 ^ 31) :
    (∀ r,
      (loadFromCheckpointShared (saveToCheckpointShared p 0 (states 0)) states r).current_pos
          = (states 0).current_pos ∧
      (loadFromCheckpointShared (saveToCheckpointShared p 0 (states 0)) states r).current_mini_batch_idx
          = (states 0).current_mini_batch_idx ∧
      (loadFromCheckpointShared (saveToCheckpointShared p 0 (states 0)) states r).shuffled_indices
          = (states 0).shuffled_indices) ∧
    (∀ r, r ≠ 0 → saveToCheckpointShared p r (states 0) = p) := by
  constructor
  · intro r
    show uint64ToInt (intToUInt64 (states 0).current_pos) = (states 0).current_pos ∧
      uint64ToInt (intToUInt64 (states 0).current_mini_batch_idx)
          = (states 0).current_mini_batch_idx ∧
      listResize (states 0).shuffled_indices
          (uint64ToInt (intToUInt64 ((states 0).shuffled_indices.length : Int))).toNat
        = (states 0).shuffled_indices
    rw [uint64ToInt_intToUInt64 _ hpos0 hpos1,
        uint64ToInt_intToUInt64 _ hidx0 hidx1,
        uint64ToInt_intToUInt64 _ (by omega) (by omega)]
    refine ⟨rfl, rfl, ?_⟩
    unfold listResize
    rw [Int.toNat_natCast, List.take_length]
    simp
  · intro r hr
    unfold saveToCheckpointShared
    rw [if_neg hr]

/-- Witness state for claim C4. -/
def ckptWitnessState : DataReaderState :=
  ⟨[7, 3], [], 4, 2, 0, 0, 0, 0, 0, 0, 0, false, false, 0, false, -1, -1⟩

/-- Witness for C4: a save/load round trip from an empty store restores
position, minibatch index and the index vector on rank 1. -/
theorem checkpoint_roundtrip_witness :
    (loadFromCheckpointShared
        (saveToCheckpointShared ⟨fun _ => none, fun _ => none⟩ 0 ckptWitnessState)
        (fun _ => ckptWitnessState) 1).current_pos = ckptWitnessState.current_pos ∧
    (loadFromCheckpointShared
        (saveToCheckpointShared ⟨fun _ => none, fun _ => none⟩ 0 ckptWitnessState)
        (fun _ => ckptWitnessState) 1).current_mini_batch_idx
      = ckptWitnessState.current_mini_batch_idx ∧
    (loadFromCheckpointShared
        (saveToCheckpointShared ⟨fun _ => none, fun _ => none⟩ 0 ckptWitnessState)
        (fun _ => ckptWitnessState) 1).shuffled_indices
      = ckptWitnessState.shuffled_indices :=
  (checkpoint_roundtrip ⟨fun _ => none, fun _ => none⟩ (fun _ => ckptWitnessState)
    (by decide) (by decide) (by decide) (by decide) (by decide)).1 1

/-- One round of recursive doubling with partner mask `mask`
(lbann_comm.cpp lines 271-284), with identity transforms and SUM
reduction over an additive commutative monoid: every rank exchanges its
full matrix with rank `r ^^^ mask` and reduces the received copy into its
own. A matrix is a family of entries indexed by rank and column; an entry
stands for a full column (`IR` ranges in the code never split rows). -/
def rdStep {α : Type} [AddCommMonoid α] (mask : Nat) (st : Nat → Nat → α) :
    Nat → Nat → α :=
  fun r c => st r c + st (r ^^^ mask) c

/-- Rounds `mask = 1, 2, …, 2^(n-1)` of recursive doubling, innermost
first. -/
def rdRounds {α : Type} [AddCommMonoid α] : Nat → (Nat → Nat → α) → (Nat → Nat → α)
  | 0, st => st
  | n + 1, st => rdStep (2 ^ n) (rdRounds n st)

/-- Embedding of `lbann_comm::recursive_doubling_allreduce_pow2`
(lbann_comm.cpp lines 260-285) with identity transforms and SUM
reduction: a no-op unless `nprocs` is a power of two (the code returns
immediately on the `nprocs & (nprocs-1)` test), else the doubling loop
`mask = 1, 2, 4, …` runs `log2 nprocs` rounds. -/
def recursive_doubling_allreduce_pow2 {α : Type} [AddCommMonoid α]
    (nprocs : Nat) (st : Nat → Nat → α) : Nat → Nat → α :=
  if nprocs &&& (nprocs - 1) ≠ 0 then st
  else rdRounds (Nat.log2 nprocs) st

theorem two_pow_add_eq_xor {k d : Nat} (h : d < 2 ^ k) : 2 ^ k + d = 2 ^ k ^^^ d := by
  apply Nat.eq_of_testBit_eq
  intro i
  rcases lt_trichotomy i k with hik | hik | hik
  · rw [Nat.testBit_xor, Nat.testBit_two_pow_of_ne (by omega),
      Nat.testBit_two_pow_add_gt hik]
    simp
  · subst hik
    rw [Nat.testBit_xor, Nat.testBit_two_pow_add_eq, Nat.testBit_two_pow_self,
      Nat.testBit_lt_two_pow h]
    rfl
  · have hki : (2 : Nat) ^ k + d < 2 ^ i := by
      have h1 : (2 : Nat) ^ (k + 1) ≤ 2 ^ i := Nat.pow_le_pow_right (by norm_num) hik
      have h2 : (2 : Nat) ^ (k + 1) = 2 ^ k + 2 ^ k := by ring
      omega
    rw [Nat.testBit_lt_two_pow hki, Nat.testBit_xor,
      Nat.testBit_two_pow_of_ne (by omega),
      Nat.testBit_lt_two_pow (show d < 2 ^ i by
        have := Nat.pow_le_pow_right (show 1 ≤ 2 by norm_num) (le_of_lt hik)
        omega)]
    rfl

theorem land_pred_eq_zero_of_pow (k : Nat) : 2 ^ k &&& (2 ^ k - 1) = 0 := by
  apply Nat.eq_of_testBit_eq
  intro i
  rw [Nat.testBit_land, Nat.zero_testBit, Nat.testBit_two_pow_sub_one]
  by_cases hik : i = k
  · subst hik
    simp
  · rw [Nat.testBit_two_pow_of_ne (Ne.symm hik)]
    simp

theorem pow_of_land_pred_eq_zero (P : Nat) (hP : 0 < P)
    (hland : P &&& (P - 1) = 0) : ∃ k, P = 2 ^ k := by
  induction P using Nat.strong_induction_on with
  | _ P ih =>
    rcases Nat.even_or_odd P with ⟨m, hm⟩ | ⟨m, hm⟩
    · subst hm
      have hm1 : 0 < m := by omega
      have key : m &&& (m - 1) = 0 := by
        apply Nat.eq_of_testBit_eq
        intro i
        have hbit := congrArg (fun x => Nat.testBit x (i + 1)) hland
        simp only [Nat.zero_testBit] at hbit ⊢
        rw [Nat.testBit_land] at hbit ⊢
        rw [Nat.testBit_succ, Nat.testBit_succ,
          show (m + m) / 2 = m by omega, show (m + m - 1) / 2 = m - 1 by omega] at hbit
        exact hbit
      obtain ⟨k, hk⟩ := ih m (by omega) hm1 key
      exact ⟨k + 1, by rw [hk]; ring⟩
    · subst hm
      have hm0 : m = 0 := by
        by_contra hne
        have hex : ∃ i, m.testBit i = true := by
          by_contra hall
          push_neg at hall
          exact hne (Nat.eq_of_testBit_eq fun i => by
            rw [Nat.zero_testBit]
            exact Bool.not_eq_true _ ▸ hall i)
        obtain ⟨i, hi⟩ := hex
        have hbit := congrArg (fun x => Nat.testBit x (i + 1)) hland
        simp only [Nat.zero_testBit] at hbit
        rw [Nat.testBit_land, Nat.testBit_succ, Nat.testBit_succ,
          show (2 * m + 1) / 2 = m by omega,
          show (2 * m + 1 - 1) / 2 = m by omega, hi] at hbit
        simp at hbit
      subst hm0
      exact ⟨0, rfl⟩

theorem rdRounds_sum {α : Type} [AddCommMonoid α] (orig : Nat → Nat → α) :
    ∀ n r c, rdRounds n orig r c = ∑ d ∈ Finset.range (2 ^ n), orig (r ^^^ d) c := by
  intro n
  induction n with
  | zero =>
    intro r c
    simp [rdRounds]
  | succ n ih =>
    intro r c
    show rdRounds n orig r c + rdRounds n orig (r ^^^ 2 ^ n) c = _
    rw [ih, ih]
    rw [show (2 : Nat) ^ (n + 1) = 2 ^ n + 2 ^ n by ring, Finset.sum_range_add]
    congr 1
    apply Finset.sum_congr rfl
    intro d hd
    rw [Finset.mem_range] at hd
    rw [two_pow_add_eq_xor hd, ← Nat.xor_assoc]

theorem sum_xor_reindex {α : Type} [AddCommMonoid α] (n r : Nat) (hr : r < 2 ^ n)
    (g : Nat → α) :
    ∑ d ∈ Finset.range (2 ^ n), g (r ^^^ d) = ∑ j ∈ Finset.range (2 ^ n), g j := by
  apply Finset.sum_nbij' (fun d => r ^^^ d) (fun j => r ^^^ j)
  · intro d hd
    rw [Finset.mem_range] at hd ⊢
    exact Nat.xor_lt_two_pow hr hd
  · intro j hj
    rw [Finset.mem_range] at hj ⊢
    exact Nat.xor_lt_two_pow hr hj
  · intro d _
    exact Nat.xor_cancel_left r d
  · intro j _
    exact Nat.xor_cancel_left r j
  · intro d _
    rfl

theorem recursive_doubling_correct {α : Type} [AddCommMonoid α] (n : Nat)
    (orig : Nat → Nat → α) (r c : Nat) (hr : r < 2 ^ n) :
    recursive_doubling_allreduce_pow2 (2 ^ n) orig r c
      = ∑ j ∈ Finset.range (2 ^ n), orig j c := by
  unfold recursive_doubling_allreduce_pow2
  rw [if_neg (by simp [land_pred_eq_zero_of_pow n]), Nat.log2_two_pow]
  rw [rdRounds_sum]
  exact sum_xor_reindex n r hr fun x => orig x c

/-- Column count of rank `i`'s slice in the PE ring
(lbann_comm.cpp lines 296-302): `W / nprocs` columns plus one leftover for
the first `W mod nprocs` ranks. -/
def sliceLen (W nprocs i : Nat) : Nat :=
  W / nprocs + if i < W % nprocs then 1 else 0

/-- `slice_ends[i]`, the inclusive partial sums of the slice lengths
(lbann_comm.cpp lines 303-305). -/
def sliceEnd (W nprocs i : Nat) : Nat :=
  ∑ j ∈ Finset.range (i + 1), sliceLen W nprocs j

/-- First column of rank `i`'s slice:
`slice_ends[i] - slice_lengths[i]`, as the code forms its `IR` views. -/
def sliceStart (W nprocs i : Nat) : Nat :=
  sliceEnd W nprocs i - sliceLen W nprocs i

/-- Column `c` lies in rank `i`'s slice. -/
def inSlice (W nprocs i c : Nat) : Prop :=
  sliceStart W nprocs i ≤ c ∧ c < sliceEnd W nprocs i

instance (W nprocs i c : Nat) : Decidable (inSlice W nprocs i c) := by
  unfold inSlice
  infer_instance

theorem sliceStart_eq (W nprocs i : Nat) :
    sliceStart W nprocs i = ∑ j ∈ Finset.range i, sliceLen W nprocs j := by
  unfold sliceStart sliceEnd
  rw [Finset.sum_range_succ]
  omega

theorem sum_ite_lt_one (P m : Nat) (h : m ≤ P) :
    ∑ i ∈ Finset.range P, (if i < m then 1 else 0) = m := by
  induction P with
  | zero =>
    simp
    omega
  | succ n ih =>
    rw [Finset.sum_range_succ]
    by_cases hm : m ≤ n
    · rw [ih hm, if_neg (by omega)]
      omega
    · have hmn : m = n + 1 := by omega
      subst hmn
      rw [if_pos (by omega)]
      rw [Finset.sum_congr rfl (fun i hi => if_pos (by
        rw [Finset.mem_range] at hi
        omega))]
      rw [Finset.sum_const, Finset.card_range, smul_eq_mul]
      omega

theorem sliceEnd_last (W P : Nat) (hP : 0 < P) : sliceEnd W P (P - 1) = W := by
  unfold sliceEnd sliceLen
  rw [show P - 1 + 1 = P by omega, Finset.sum_add_distrib, Finset.sum_const,
    Finset.card_range, smul_eq_mul,
    sum_ite_lt_one P (W % P) (le_of_lt (Nat.mod_lt _ hP))]
  have := Nat.div_add_mod W P
  omega

theorem slice_mono (W P : Nat) {i j : Nat} (hij : i < j) :
    sliceEnd W P i ≤ sliceStart W P j := by
  rw [sliceStart_eq]
  unfold sliceEnd
  apply Finset.sum_le_sum_of_subset
  intro x hx
  rw [Finset.mem_range] at hx ⊢
  omega

theorem slice_disjoint (W P : Nat) {i j c : Nat} (hij : i ≠ j)
    (hi : inSlice W P i c) (hj : inSlice W P j c) : False := by
  obtain ⟨hi1, hi2⟩ := hi
  obtain ⟨hj1, hj2⟩ := hj
  rcases lt_or_gt_of_ne hij with h | h
  · have := slice_mono W P h
    omega
  · have := slice_mono W P h
    omega

theorem slice_cover (W P c : Nat) (hP : 0 < P) (hc : c < W) :
    ∃ i, i < P ∧ inSlice W P i c := by
  have main : ∀ m, c < ∑ j ∈ Finset.range m, sliceLen W P j →
      ∃ i, i < m ∧ inSlice W P i c := by
    intro m
    induction m with
    | zero =>
      intro h
      simp at h
    | succ k ih =>
      intro hlt
      by_cases hk : c < ∑ j ∈ Finset.range k, sliceLen W P j
      · obtain ⟨i, hi, hin⟩ := ih hk
        exact ⟨i, by omega, hin⟩
      · refine ⟨k, by omega, ⟨?_, ?_⟩⟩
        · rw [sliceStart_eq]
          omega
        · unfold sliceEnd
          exact hlt
  apply main P
  have h1 := sliceEnd_last W P hP
  unfold sliceEnd at h1
  rw [show P - 1 + 1 = P by omega] at h1
  omega

theorem mod_shift_eval (P r t : Nat) (hr : r < P) (ht : t ≤ P) :
    (r + P - t) % P = if t ≤ r then r - t else r + P - t := by
  by_cases h : t ≤ r
  · rw [if_pos h, show r + P - t = (r - t) + P by omega, Nat.add_mod_right,
      Nat.mod_eq_of_lt (by omega)]
  · rw [if_neg h, Nat.mod_eq_of_lt (by omega)]

theorem mod_shift_lt (P r t : Nat) (hP : 0 < P) : (r + P - t % P) % P < P :=
  Nat.mod_lt _ hP

theorem mod_shift_invol (P r j : Nat) (hr : r < P) (hj : j < P) :
    (r + P - ((r + P - j % P) % P) % P) % P = j := by
  have hP : 0 < P := by omega
  have hx : (r + P - j % P) % P < P := Nat.mod_lt _ hP
  rw [Nat.mod_eq_of_lt hx, Nat.mod_eq_of_lt hj,
    mod_shift_eval P r j hr (le_of_lt hj)]
  by_cases h : j ≤ r
  · rw [if_pos h, mod_shift_eval P r (r - j) hr (by omega), if_pos (by omega)]
    omega
  · rw [if_neg h, mod_shift_eval P r (r + P - j) hr (by omega), if_neg (by omega)]
    omega

theorem sum_mod_shift {α : Type} [AddCommMonoid α] (P r : Nat) (hP : 0 < P)
    (hr : r < P) (g : Nat → α) :
    ∑ t ∈ Finset.range P, g ((r + P - t % P) % P) = ∑ j ∈ Finset.range P, g j := by
  apply Finset.sum_nbij' (fun t => (r + P - t % P) % P) (fun j => (r + P - j % P) % P)
  · intro t _
    rw [Finset.mem_range]
    exact mod_shift_lt P r t hP
  · intro j _
    rw [Finset.mem_range]
    exact mod_shift_lt P r j hP
  · intro t hmem
    rw [Finset.mem_range] at hmem
    exact mod_shift_invol P r t hr hmem
  · intro j hmem
    rw [Finset.mem_range] at hmem
    exact mod_shift_invol P r j hr hmem
  · intro t _
    rfl

/-- One reduce-scatter step of the PE ring (lbann_comm.cpp lines 311-326)
with identity transforms and SUM reduction: at step `s` every rank `r`
receives from `src = (r - s) mod nprocs` that rank's current view of
`r`'s slice and reduces it into its own columns of that slice; all other
columns are untouched (the `accum_view` is the slice owned by `r`). -/
def peRSStep {α : Type} [AddCommMonoid α] (W nprocs s : Nat)
    (st : Nat → Nat → α) : Nat → Nat → α :=
  fun r c =>
    if inSlice W nprocs r c then st r c + st ((r + nprocs - s % nprocs) % nprocs) c
    else st r c

/-- Reduce-scatter phase of the PE ring: steps `1 … s` of the loop
`for step = 1 … nprocs-1`. -/
def peRS {α : Type} [AddCommMonoid α] (W nprocs : Nat) (orig : Nat → Nat → α) :
    Nat → (Nat → Nat → α)
  | 0 => orig
  | s + 1 => peRSStep W nprocs (s + 1) (peRS W nprocs orig s)

theorem peRS_off_slice {α : Type} [AddCommMonoid α] (W P : Nat)
    (orig : Nat → Nat → α) (s r c : Nat) (h : ¬ inSlice W P r c) :
    peRS W P orig s r c = orig r c := by
  induction s with
  | zero => rfl
  | succ k ih =>
    show peRSStep W P (k + 1) (peRS W P orig k) r c = orig r c
    unfold peRSStep
    rw [if_neg h]
    exact ih

theorem peRS_on_slice {α : Type} [AddCommMonoid α] (W P : Nat)
    (orig : Nat → Nat → α) (_hP : 0 < P) :
    ∀ s, s < P → ∀ r c, r < P → inSlice W P r c →
      peRS W P orig s r c
        = orig r c + ∑ t ∈ Finset.range s, orig ((r + P - (t + 1) % P) % P) c := by
  intro s
  induction s with
  | zero =>
    intro _ r c _ _
    simp [peRS]
  | succ k ih =>
    intro hs r c hr hin
    show peRSStep W P (k + 1) (peRS W P orig k) r c = _
    unfold peRSStep
    rw [if_pos hin]
    have hsmod : (k + 1) % P = k + 1 := Nat.mod_eq_of_lt hs
    have hsrc_ne : (r + P - (k + 1) % P) % P ≠ r := by
      rw [hsmod, mod_shift_eval P r (k + 1) hr (by omega)]
      by_cases h : k + 1 ≤ r
      · rw [if_pos h]
        omega
      · rw [if_neg h]
        omega
    have hoff : ¬ inSlice W P ((r + P - (k + 1) % P) % P) c :=
      fun hin2 => slice_disjoint W P hsrc_ne hin2 hin
    rw [peRS_off_slice W P orig k _ _ hoff, ih (by omega) r c hr hin,
      Finset.sum_range_succ, add_assoc]

theorem peRS_reduced {α : Type} [AddCommMonoid α] (W P : Nat)
    (orig : Nat → Nat → α) (hP : 0 < P) (r c : Nat) (hr : r < P)
    (hin : inSlice W P r c) :
    peRS W P orig (P - 1) r c = ∑ j ∈ Finset.range P, orig j c := by
  rw [peRS_on_slice W P orig hP (P - 1) (by omega) r c hr hin]
  have h1 : ∑ t ∈ Finset.range P, orig ((r + P - t % P) % P) c
      = ∑ j ∈ Finset.range P, orig j c :=
    sum_mod_shift P r hP hr (fun x => orig x c)
  have h2 : ∑ t ∈ Finset.range P, orig ((r + P - t % P) % P) c
      = (∑ t ∈ Finset.range (P - 1), orig ((r + P - (t + 1) % P) % P) c)
        + orig ((r + P - 0 % P) % P) c := by
    have h0 := Finset.sum_range_succ' (fun t => orig ((r + P - t % P) % P) c) (P - 1)
    rw [show P - 1 + 1 = P by omega] at h0
    exact h0
  have h3 : (r + P - 0 % P) % P = r := by
    rw [Nat.zero_mod, Nat.sub_zero, Nat.add_mod_right, Nat.mod_eq_of_lt hr]
  rw [h3] at h2
  rw [← h1, h2]
  exact add_comm _ _

/-- First allgather step of the PE ring (lbann_comm.cpp lines 331-347),
run unconditionally: every rank encodes its own reduced slice, sends it to
`rank+1`, and decodes the slice received from `rank-1` into that slice's
columns (`recv_transform` overwrites). The state is the pair (matrix per
rank, forward buffer per rank); with identity transforms a buffer is the
column family it encodes. -/
def peAGInit {α : Type} (W nprocs : Nat) (st0 : Nat → Nat → α) :
    (Nat → Nat → α) × (Nat → Nat → α) :=
  (fun r c =>
     if inSlice W nprocs ((r + nprocs - 1) % nprocs) c then
       st0 ((r + nprocs - 1) % nprocs) c
     else st0 r c,
   fun r => st0 ((r + nprocs - 1) % nprocs))

/-- Later allgather step `s = 1, …, nprocs-2` (lbann_comm.cpp lines
348-366): the just-received buffer is forwarded without re-encoding
(swapping the two scratch buffers), and every rank decodes the buffer
received from `rank-1` into the slice of rank `(r - s - 1) mod nprocs`. -/
def peAGStep {α : Type} (W nprocs s : Nat)
    (state : (Nat → Nat → α) × (Nat → Nat → α)) :
    (Nat → Nat → α) × (Nat → Nat → α) :=
  (fun r c =>
     if inSlice W nprocs ((r + nprocs - (s + 1) % nprocs) % nprocs) c then
       state.2 ((r + nprocs - 1) % nprocs) c
     else state.1 r c,
   fun r => state.2 ((r + nprocs - 1) % nprocs))

/-- Allgather phase: the unconditional first step plus `n` forwarding
steps. -/
def peAG {α : Type} (W nprocs : Nat) (st0 : Nat → Nat → α) :
    Nat → ((Nat → Nat → α) × (Nat → Nat → α))
  | 0 => peAGInit W nprocs st0
  | n + 1 => peAGStep W nprocs (n + 1) (peAG W nprocs st0 n)

/-- Embedding of `lbann_comm::pe_ring_allreduce` (lbann_comm.cpp lines
287-367) with identity transforms and SUM reduction: `nprocs - 1`
pairwise-exchange reduce-scatter steps, then the ring allgather (first
step plus `nprocs - 2` forwarding steps). The result is the matrix family
after the allgather. -/
def pe_ring_allreduce {α : Type} [AddCommMonoid α] (W nprocs : Nat)
    (orig : Nat → Nat → α) : Nat → Nat → α :=
  (peAG W nprocs (peRS W nprocs orig (nprocs - 1)) (nprocs - 2)).1

theorem mod_shift_compose (P r k : Nat) (hr : r < P) (hk : k + 2 ≤ P) :
    ((r + P - 1) % P + P - (k + 1)) % P = (r + P - (k + 2)) % P := by
  rw [mod_shift_eval P r 1 hr (by omega)]
  by_cases h1 : 1 ≤ r
  · rw [if_pos h1, mod_shift_eval P (r - 1) (k + 1) (by omega) (by omega),
      mod_shift_eval P r (k + 2) hr hk]
    by_cases h2 : k + 2 ≤ r
    · rw [if_pos (by omega : k + 1 ≤ r - 1), if_pos h2]
      omega
    · rw [if_neg (by omega : ¬ k + 1 ≤ r - 1), if_neg h2]
      omega
  · rw [if_neg h1, mod_shift_eval P (r + P - 1) (k + 1) (by omega) (by omega),
      mod_shift_eval P r (k + 2) hr hk]
    rw [if_pos (by omega : k + 1 ≤ r + P - 1), if_neg (by omega : ¬ k + 2 ≤ r)]
    omega

theorem peAG_bufs {α : Type} (W P : Nat) (st0 : Nat → Nat → α) (hP : 0 < P) :
    ∀ n, n + 1 ≤ P → ∀ r, r < P →
      (peAG W P st0 n).2 r = st0 ((r + P - (n + 1)) % P) := by
  intro n
  induction n with
  | zero =>
    intro _ r _
    rfl
  | succ k ih =>
    intro hn r hr
    show (peAG W P st0 k).2 ((r + P - 1) % P) = st0 ((r + P - (k + 2)) % P)
    rw [ih (by omega) _ (Nat.mod_lt _ hP)]
    rw [mod_shift_compose P r k hr (by omega)]

theorem peAG_mats {α : Type} (W P : Nat) (st0 : Nat → Nat → α) (red : Nat → α)
    (hP : 0 < P)
    (hst0 : ∀ j c, j < P → inSlice W P j c → st0 j c = red c) :
    ∀ n, n ≤ P - 2 → ∀ r c, r < P →
      (∃ t, t ≤ n + 1 ∧ inSlice W P ((r + P - t) % P) c) →
      (peAG W P st0 n).1 r c = red c := by
  intro n
  induction n with
  | zero =>
    intro _ r c hr hex
    show (if inSlice W P ((r + P - 1) % P) c then st0 ((r + P - 1) % P) c
          else st0 r c) = red c
    by_cases hin : inSlice W P ((r + P - 1) % P) c
    · rw [if_pos hin]
      exact hst0 _ c (Nat.mod_lt _ hP) hin
    · rw [if_neg hin]
      obtain ⟨t, ht, hslice⟩ := hex
      have ht0 : t = 0 := by
        rcases Nat.le_one_iff_eq_zero_or_eq_one.mp ht with h | h
        · exact h
        · subst h
          exact absurd hslice hin
      subst ht0
      rw [Nat.sub_zero, Nat.add_mod_right, Nat.mod_eq_of_lt hr] at hslice
      exact hst0 r c hr hslice
  | succ k ih =>
    intro hn r c hr hex
    have hmod : (k + 1 + 1) % P = k + 2 := Nat.mod_eq_of_lt (by omega)
    show (if inSlice W P ((r + P - (k + 1 + 1) % P) % P) c then
            (peAG W P st0 k).2 ((r + P - 1) % P) c
          else (peAG W P st0 k).1 r c) = red c
    rw [hmod]
    by_cases hin : inSlice W P ((r + P - (k + 2)) % P) c
    · rw [if_pos hin]
      rw [peAG_bufs W P st0 hP k (by omega) _ (Nat.mod_lt _ hP)]
      rw [mod_shift_compose P r k hr (by omega)]
      exact hst0 _ c (Nat.mod_lt _ hP) hin
    · rw [if_neg hin]
      obtain ⟨t, ht, hslice⟩ := hex
      have htk : t ≤ k + 1 := by
        rcases Nat.lt_or_ge t (k + 2) with h | h
        · omega
        · have ht2 : t = k + 2 := by omega
          subst ht2
          exact absurd hslice hin
      exact ih (by omega) r c hr ⟨t, htk, hslice⟩

theorem pe_ring_allreduce_correct {α : Type} [AddCommMonoid α] (W P : Nat)
    (orig : Nat → Nat → α) (hP : 0 < P) (r c : Nat) (hr : r < P) (hc : c < W) :
    pe_ring_allreduce W P orig r c = ∑ j ∈ Finset.range P, orig j c := by
  unfold pe_ring_allreduce
  apply peAG_mats W P (peRS W P orig (P - 1)) (fun c2 => ∑ j ∈ Finset.range P, orig j c2)
    hP
    (fun j c2 hj hin => peRS_reduced W P orig hP j c2 hj hin)
    (P - 2) (le_refl _) r c hr
  obtain ⟨j, hj, hjin⟩ := slice_cover W P c hP hc
  refine ⟨(r + P - j % P) % P, ?_, ?_⟩
  · have := mod_shift_lt P r j hP
    omega
  · have hx : (r + P - j % P) % P < P := Nat.mod_lt _ hP
    have h1 := mod_shift_invol P r j hr hj
    rw [Nat.mod_eq_of_lt hx] at h1
    rw [h1]
    exact hjin

/-- Which algorithm `intermodel_allreduce` dispatches to. -/
inductive AllreduceAlgo where
  | recursive_doubling
  | pe_ring
deriving DecidableEq, Repr

/-- The dispatch decision of `lbann_comm::intermodel_allreduce`
(lbann_comm.cpp lines 240-257): PE ring for a non-power-of-two model
count (the `nprocs & (nprocs - 1)` test), else recursive doubling for
matrices of height and width at most 64, else PE ring. -/
def intermodel_allreduce_algo (nprocs height width : Nat) : AllreduceAlgo :=
  if nprocs &&& (nprocs - 1) ≠ 0 then .pe_ring
  else if height ≤ 64 ∧ width ≤ 64 then .recursive_doubling
  else .pe_ring

/-- Embedding of `lbann_comm::intermodel_allreduce` (lbann_comm.cpp lines
235-258) with identity transforms and SUM reduction, dispatching between
the two algorithms exactly as the code does. -/
def intermodel_allreduce {α : Type} [AddCommMonoid α] (nprocs height W : Nat)
    (orig : Nat → Nat → α) : Nat → Nat → α :=
  if nprocs &&& (nprocs - 1) ≠ 0 then pe_ring_allreduce W nprocs orig
  else if height ≤ 64 ∧ W ≤ 64 then recursive_doubling_allreduce_pow2 nprocs orig
  else pe_ring_allreduce W nprocs orig

/-- C1: for any number of models `P ≥ 1`, any per-rank matrices of equal
shape, and transforms implementing an associative SUM reduction with
identity encode/decode (entries in an additive commutative monoid),
`intermodel_allreduce` leaves every rank `r < P` holding the same matrix,
the elementwise sum of all ranks' inputs, at every column `c < W` —
regardless of whether the recursive-doubling or the pairwise-exchange
ring path is taken. -/
theorem intermodel_allreduce_correct {α : Type} [AddCommMonoid α]
    (P height W : Nat) (hP : 0 < P) (orig : Nat → Nat → α) (r c : Nat)
    (hr : r < P) (hc : c < W) :
    intermodel_allreduce P height W orig r c = ∑ j ∈ Finset.range P, orig j c := by
  unfold intermodel_allreduce
  by_cases hpow : P &&& (P - 1) ≠ 0
  · rw [if_pos hpow]
    exact pe_ring_allreduce_correct W P orig hP r c hr hc
  · rw [if_neg hpow]
    by_cases hsmall : height ≤ 64 ∧ W ≤ 64
    · rw [if_pos hsmall]
      obtain ⟨n, rfl⟩ := pow_of_land_pred_eq_zero P hP (not_not.mp hpow)
      exact recursive_doubling_correct n orig r c hr
    · rw [if_neg hsmall]
      exact pe_ring_allreduce_correct W P orig hP r c hr hc

/-- Witness for C1: 4 models holding 1 by 1 integer matrices. -/
theorem intermodel_allreduce_correct_witness :
    intermodel_allreduce 4 1 1 (fun j _ => (j : Int) + 1) 0 0
      = ∑ j ∈ Finset.range 4, ((j : Int) + 1) :=
  intermodel_allreduce_correct 4 1 1 (by decide) (fun j _ => (j : Int) + 1) 0 0
    (by decide) (by decide)

/-- C2: with at least one model, `intermodel_allreduce` dispatches to
recursive doubling exactly when the number of models is a power of two
and both matrix dimensions are at most 64, and to the pairwise-exchange
ring in every other case. -/
theorem intermodel_allreduce_dispatch (P height width : Nat) (hP : 0 < P) :
    (intermodel_allreduce_algo P height width = .recursive_doubling ↔
      (∃ k, P = 2 ^ k) ∧ height ≤ 64 ∧ width ≤ 64) ∧
    (intermodel_allreduce_algo P height width = .pe_ring ↔
      ¬((∃ k, P = 2 ^ k) ∧ height ≤ 64 ∧ width ≤ 64)) := by
  have hchar : P &&& (P - 1) = 0 ↔ ∃ k, P = 2 ^ k := by
    constructor
    · exact pow_of_land_pred_eq_zero P hP
    · rintro ⟨k, rfl⟩
      exact land_pred_eq_zero_of_pow k
  unfold intermodel_allreduce_algo
  by_cases hpow : P &&& (P - 1) ≠ 0
  · rw [if_pos hpow]
    have hnp : ¬ ∃ k, P = 2 ^ k := fun h => hpow (hchar.mpr h)
    refine ⟨⟨fun h => by simp at h, fun h2 => absurd h2.1 hnp⟩, ?_⟩
    simp [hnp]
  · rw [if_neg hpow]
    have hp2 : ∃ k, P = 2 ^ k := hchar.mp (not_not.mp hpow)
    by_cases hsmall : height ≤ 64 ∧ width ≤ 64
    · rw [if_pos hsmall]
      constructor
      · simp [hp2, hsmall.1, hsmall.2]
      · constructor
        · intro h
          simp at h
        · intro h
          exact absurd ⟨hp2, hsmall⟩ h
    · rw [if_neg hsmall]
      constructor
      · refine ⟨fun h => by simp at h, fun h2 => absurd h2.2 hsmall⟩
      · simp [hsmall]

/-- Witness for C2: 4 models, a 10 by 10 matrix selects recursive
doubling. -/
theorem intermodel_allreduce_dispatch_witness :
    (intermodel_allreduce_algo 4 10 10 = .recursive_doubling ↔
      (∃ k, (4 : Nat) = 2 ^ k) ∧ 10 ≤ 64 ∧ 10 ≤ 64) ∧
    (intermodel_allreduce_algo 4 10 10 = .pe_ring ↔
      ¬((∃ k, (4 : Nat) = 2 ^ k) ∧ 10 ≤ 64 ∧ 10 ≤ 64)) :=
  intermodel_allreduce_dispatch 4 10 10 (by decide)
